import Mathlib

/-!
Verification of the token-protection / translation-cache subsystem of
`translate.py` (sorts-dnd-5e).

Strings are modelled as `List Char` (`Str`), so that every operation is a
structurally recursive, kernel-computable function.  The regex passes of
`protect_tokens`, Python's `str.replace` (used by `restore_tokens` and the
CRLF normalization in `norm_ws`), `re.sub("[ \t]+", " ", ...)`, `str.strip`,
the cache dictionary and the batch orchestration `translate_segments` are all
translated directly from the source.  Recursions that consume a non-constant
number of characters per step use an explicit fuel argument initialised with
the string length; each step consumes at least one character, so the fuel
never runs out (the out-of-fuel branches are unreachable for those calls).
-/

set_option autoImplicit false

namespace DndTranslate

/-- Strings modelled as lists of characters. -/
abbrev Str := List Char

/-- Convenience coercion from Lean string literals. -/
def strL (s : String) : Str := s.toList

/-- If `pat` is a prefix of `s`, return the remainder of `s`, else `none`. -/
def stripPfx : Str → Str → Option Str
  | [], s => some s
  | _ :: _, [] => none
  | p :: ps, c :: cs => if p = c then stripPfx ps cs else none

theorem stripPfx_eq_some {pat s rest : Str} :
    stripPfx pat s = some rest ↔ s = pat ++ rest := by
  induction pat generalizing s with
  | nil =>
    simp [stripPfx, eq_comm]
  | cons p ps ih =>
    cases s with
    | nil => simp [stripPfx]
    | cons c cs =>
      by_cases h : p = c
      · subst h
        simp [stripPfx, ih]
      · simp only [stripPfx, if_neg h, List.cons_append, List.cons.injEq]
        constructor
        · intro hc; cases hc
        · intro hc; exact absurd hc.1.symm h

theorem stripPfx_self_append (pat r : Str) : stripPfx pat (pat ++ r) = some r := by
  exact stripPfx_eq_some.mpr rfl

theorem stripPfx_none_of_ne {pat s : Str} (h : ∀ rest, s ≠ pat ++ rest) :
    stripPfx pat s = none := by
  cases hs : stripPfx pat s with
  | none => rfl
  | some rest => exact absurd (stripPfx_eq_some.mp hs) (h rest)

/-- Fueled worker for non-overlapping left-to-right global replacement,
the semantics of Python `str.replace(pat, rep)`.  Each step consumes at
least one character of the scanned string, so fuel `s.length` suffices. -/
def rAll (pat rep : Str) : Nat → Str → Str
  | _, [] => []
  | 0, s => s
  | f + 1, c :: cs =>
    match stripPfx pat (c :: cs) with
    | some rest => rep ++ rAll pat rep f rest
    | none => c :: rAll pat rep f cs

/-- Python `s.replace(pat, rep)` (for nonempty `pat`; empty `pat` is never
used by the source). -/
def replaceAll (s pat rep : Str) : Str :=
  if pat = [] then s else rAll pat rep s.length s

theorem rAll_fuel {pat rep : Str} (hp : pat ≠ []) :
    ∀ f f' s, s.length ≤ f → s.length ≤ f' →
      rAll pat rep f s = rAll pat rep f' s := by
  intro f
  induction f with
  | zero =>
    intro f' s hf _
    have : s = [] := List.length_eq_zero.mp (Nat.le_zero.mp hf)
    subst this
    cases f' <;> rfl
  | succ f ih =>
    intro f' s hf hf'
    cases s with
    | nil => cases f' <;> rfl
    | cons c cs =>
      cases f' with
      | zero => exact absurd hf' (by simp)
      | succ f' =>
        show rAll pat rep (f+1) (c :: cs) = rAll pat rep (f'+1) (c :: cs)
        cases hm : stripPfx pat (c :: cs) with
        | some rest =>
          have hsplit : c :: cs = pat ++ rest := stripPfx_eq_some.mp hm
          have hlen : rest.length < (c :: cs).length := by
            rw [hsplit, List.length_append]
            cases pat with
            | nil => exact absurd rfl hp
            | cons p ps => simp
          have h1 : rest.length ≤ f := by
            have := Nat.lt_of_lt_of_le hlen hf
            omega
          have h2 : rest.length ≤ f' := by
            have := Nat.lt_of_lt_of_le hlen hf'
            omega
          simp [rAll, hm, ih f' rest h1 h2]
        | none =>
          have h1 : cs.length ≤ f := by simp at hf; omega
          have h2 : cs.length ≤ f' := by simp at hf'; omega
          simp [rAll, hm, ih f' cs h1 h2]

theorem replaceAll_nil (pat rep : Str) : replaceAll [] pat rep = [] := by
  unfold replaceAll
  cases pat <;> simp [rAll]

theorem replaceAll_cons_match {pat rep s rest : Str} (hp : pat ≠ [])
    (hm : stripPfx pat s = some rest) :
    replaceAll s pat rep = rep ++ replaceAll rest pat rep := by
  have hsplit : s = pat ++ rest := stripPfx_eq_some.mp hm
  have hlen : rest.length < s.length := by
    rw [hsplit, List.length_append]
    cases pat with
    | nil => exact absurd rfl hp
    | cons p ps => simp
  cases s with
  | nil =>
    cases pat with
    | nil => exact absurd rfl hp
    | cons p ps => simp [stripPfx] at hm
  | cons c cs =>
    unfold replaceAll
    rw [if_neg hp, if_neg hp]
    show rAll pat rep (cs.length + 1) (c :: cs) = rep ++ rAll pat rep rest.length rest
    have h1 : rAll pat rep (cs.length + 1) (c :: cs)
        = rep ++ rAll pat rep cs.length rest := by
      simp [rAll, hm]
    rw [h1]
    congr 1
    have hlen' : rest.length ≤ cs.length := by
      simp at hlen; omega
    exact rAll_fuel hp cs.length rest.length rest hlen' (le_refl _)

theorem replaceAll_cons_nomatch {pat rep : Str} {c : Char} {cs : Str} (hp : pat ≠ [])
    (hm : stripPfx pat (c :: cs) = none) :
    replaceAll (c :: cs) pat rep = c :: replaceAll cs pat rep := by
  unfold replaceAll
  rw [if_neg hp, if_neg hp]
  show rAll pat rep (cs.length + 1) (c :: cs) = c :: rAll pat rep cs.length cs
  simp [rAll, hm]

/-! ### Decimal rendering of the placeholder index (Python `f"{i}"`) -/

/-- Character for a single decimal digit value. -/
def digitChar (n : Nat) : Char := Char.ofNat (48 + n)

/-- Fueled decimal rendering; fuel `n + 1` always suffices since the
argument strictly decreases under division by 10. -/
def decDigitsGo : Nat → Nat → List Char
  | 0, _ => []
  | f + 1, n => if n < 10 then [digitChar n]
      else decDigitsGo f (n / 10) ++ [digitChar (n % 10)]

/-- Decimal digit string of `n`, as produced by Python string formatting. -/
def decDigits (n : Nat) : List Char := decDigitsGo (n + 1) n

/-- The placeholder `§§T<i>§§` used by `protect_tokens` / `restore_tokens`. -/
def ph (i : Nat) : Str := '§' :: '§' :: 'T' :: (decDigits i ++ ['§', '§'])

/-! ### `restore_tokens` (translate.py lines 81-85): for each index `i` in
ascending order, globally replace `§§T<i>§§` by `tokens[i]`. -/

def restoreAux : Str → Nat → List Str → Str
  | s, _, [] => s
  | s, i, t :: ts => restoreAux (replaceAll s (ph i) t) (i + 1) ts

/-- `restore_tokens(text, tokens)` from the source. -/
def restore_tokens (text : Str) (tokens : List Str) : Str :=
  restoreAux text 0 tokens

/-! ### The five token-protection regexes (translate.py lines 59-63).
Each matcher takes the character preceding the current position (needed for
the `\b` boundaries of the dice regex) and the remaining input, and returns
the length of the match starting here, if any.  The character classes of
the patterns are explicit ASCII ranges; for the `\b` boundaries of the dice
regex, word characters are modelled as ASCII alphanumerics or `_` (Python's
`\b` additionally treats non-ASCII letters as word characters, which only
matters for dice expressions adjacent to non-ASCII letters). -/

def isWordChar (c : Char) : Bool := c.isAlphanum || c == '_'

def isDigitChar (c : Char) : Bool := c.isDigit

/-- Distance to just past the first `]]` (lazy `.*?`, `.` excludes
newlines), counting from the position after the opening `[[`. -/
def findClose : Str → Option Nat
  | ']' :: ']' :: _ => some 2
  | '\n' :: _ => none
  | _ :: cs => (findClose cs).map (· + 1)
  | [] => none

/-- `RE_FOUNDRY_BLOCK = \[\[.*?\]\]`. -/
def mFoundry : Option Char → Str → Option Nat
  | _, '[' :: '[' :: rest => (findClose rest).map (· + 2)
  | _, _ => none

/-- `RE_5ETOOLS_TAG = {@[^{}]+}`. -/
def mTag : Option Char → Str → Option Nat
  | _, '{' :: '@' :: rest =>
    let run := rest.takeWhile (fun c => c != '{' && c != '}')
    if run.isEmpty then none
    else match rest.drop run.length with
      | '}' :: _ => some (2 + run.length + 1)
      | _ => none
  | _, _ => none

/-- `RE_AT_TOKEN = @[A-Za-z0-9_.\[\]-]+`. -/
def mAt : Option Char → Str → Option Nat
  | _, '@' :: rest =>
    let run := rest.takeWhile (fun c =>
      c.isAlphanum || c == '_' || c == '.' || c == '[' || c == ']' || c == '-')
    if run.isEmpty then none else some (1 + run.length)
  | _, _ => none

/-- Does a `\b` word boundary hold between a word character and this
remaining input (i.e. the next character, if any, is a non-word)? -/
def bEnd (s : Str) : Bool :=
  match s.head? with
  | none => true
  | some c => !isWordChar c

/-- `RE_DICE = \b\d+d\d+([+-]\d+)?\b`, with Python's backtracking: if the
optional `[+-]\d+` group matches but the trailing `\b` then fails, the
group is dropped and the boundary is re-checked after the second number
(where the sign character satisfies it). -/
def mDice : Option Char → Str → Option Nat
  | prev, s =>
    let bStart := match prev with
      | none => true
      | some p => !isWordChar p
    if !bStart then none
    else
      let d1 := s.takeWhile isDigitChar
      if d1.isEmpty then none
      else match s.drop d1.length with
        | 'd' :: s2 =>
          let d2 := s2.takeWhile isDigitChar
          if d2.isEmpty then none
          else
            let base := d1.length + 1 + d2.length
            let s3 := s2.drop d2.length
            let fallback := if bEnd s3 then some base else none
            match s3 with
            | c :: s4 =>
              if c == '+' || c == '-' then
                let d3 := s4.takeWhile isDigitChar
                if d3.isEmpty then fallback
                else if bEnd (s4.drop d3.length) then some (base + 1 + d3.length)
                else fallback
              else fallback
            | [] => fallback
        | _ => none

/-- `RE_COMMAND = /[a-zA-Z]+`. -/
def mCommand : Option Char → Str → Option Nat
  | _, '/' :: rest =>
    let run := rest.takeWhile (fun c => c.isAlpha)
    if run.isEmpty then none else some (1 + run.length)
  | _, _ => none

/-! ### One `regex.sub(_sub, out)` pass of `protect_tokens` (lines 71-77).
The scanner walks the string left to right; at each position it asks the
matcher for a match.  A match of length `len` is replaced by the placeholder
numbered `tokens.length` and the matched text is appended to the token list;
scanning resumes after the match, with the previous-character context taken
from the original string (as `re.sub` does).  Fuel `s.length` suffices since
every step consumes at least one character (all five regexes only produce
nonempty matches). -/

def substGo (M : Option Char → Str → Option Nat) :
    Nat → Option Char → Str → List Str → Str × List Str
  | _, _, [], tokens => ([], tokens)
  | 0, _, s, tokens => (s, tokens)
  | f + 1, prev, c :: cs, tokens =>
    match M prev (c :: cs) with
    | some len =>
      if len = 0 then
        let r := substGo M f (some c) cs tokens
        (c :: r.1, r.2)
      else
        let matched := (c :: cs).take len
        let rest := (c :: cs).drop len
        let phStr := ph tokens.length
        let r := substGo M f matched.getLast? rest (tokens ++ [matched])
        (phStr ++ r.1, r.2)
    | none =>
      let r := substGo M f (some c) cs tokens
      (c :: r.1, r.2)

/-- One full regex pass over the current text, threading the token list. -/
def runPass (M : Option Char → Str → Option Nat) (st : Str × List Str) :
    Str × List Str :=
  substGo M st.1.length none st.1 st.2

/-- `protect_tokens(text)` from the source (lines 66-78): the five passes
applied in priority order, sharing one token list. -/
def protect_tokens (text : Str) : Str × List Str :=
  if text = [] then ([], [])
  else runPass mCommand (runPass mDice (runPass mAt (runPass mTag
    (runPass mFoundry (text, [])))))

/-! ### `norm_ws` (translate.py lines 88-89):
`re.sub(r"[ \t]+", " ", (s or "").replace("\r\n", "\n")).strip()`. -/

def isHT (c : Char) : Bool := c == ' ' || c == '\t'

/-- Python whitespace as stripped by `str.strip()` (ASCII range; the
further Unicode space characters cannot occur in the claims' inputs). -/
def pyWs (c : Char) : Bool :=
  c == ' ' || c == '\t' || c == '\n' || c == '\r' || c == '\x0b' ||
  c == '\x0c' || c == '\x1c' || c == '\x1d' || c == '\x1e' || c == '\x1f' ||
  c == '\x85'

/-- `re.sub(r"[ \t]+", " ", s)`: collapse every run of spaces/tabs to a
single space.  The flag records whether we are inside a run whose first
character has already been emitted as `' '`. -/
def collapseGo : Bool → Str → Str
  | _, [] => []
  | inRun, c :: cs =>
    if isHT c then
      if inRun then collapseGo true cs
      else ' ' :: collapseGo true cs
    else c :: collapseGo false cs

def collapse (s : Str) : Str := collapseGo false s

/-- Remove trailing Python whitespace (`str.strip`'s right half). -/
def rstrip : Str → Str
  | [] => []
  | c :: cs =>
    match rstrip cs with
    | [] => if pyWs c then [] else [c]
    | d :: ds => c :: d :: ds

/-- Python `str.strip()`. -/
def strip (s : Str) : Str := rstrip (s.dropWhile pyWs)

/-- The CRLF pattern replaced first by `norm_ws`. -/
def CRLF : Str := ['\r', '\n']

/-- `norm_ws(s)` from the source. -/
def norm_ws (s : Str) : Str :=
  strip (collapse (replaceAll s CRLF ['\n']))

/-! ### Cache (translate.py lines 93-107).
The cache is a Python dict from key strings to translated strings, modelled
as an association list where assignment updates in place or appends.
`cache_key` builds `sha256(f"{provider}|{src}|{tgt}|{text}")`; sha256 is a
fixed deterministic injective-in-practice function of its preimage, so the
key is modelled as the preimage string itself: equality/inequality of keys
(all that the cache logic observes) is preserved. -/

abbrev Cache := List (Str × Str)

/-- Dict lookup `cache[key]` / `key in cache`. -/
def lookupC : Cache → Str → Option Str
  | [], _ => none
  | (k, v) :: rest, key => if k = key then some v else lookupC rest key

/-- Dict assignment `cache[key] = v`. -/
def setC : Cache → Str → Str → Cache
  | [], key, v => [(key, v)]
  | (k, w) :: rest, key, v =>
    if k = key then (k, v) :: rest else (k, w) :: setC rest key v

/-- `cache_key(provider, src, tgt, text)` (line 106-107), modelled as the
digest preimage `f"{provider}|{src}|{tgt}|{text}"`. -/
def cache_key (provider src tgt text : Str) : Str :=
  provider ++ '|' :: src ++ '|' :: tgt ++ '|' :: text

/-- `load_cache()` (lines 93-99).  The filesystem boundary is modelled by
`disk : Option Str` (`none` = `CACHE_PATH.exists()` false, `some s` = file
contents) and `parse : Str -> Option Cache` standing for `json.loads`
(`none` = any parse exception).  The function returns `{}` when the file is
missing and `{}` when parsing raises; otherwise the parsed mapping. -/
def load_cache (disk : Option Str) (parse : Str → Option Cache) : Cache :=
  match disk with
  | none => []
  | some s => (parse s).getD []

/-- `save_cache(cache)` (lines 102-103): persisting is modelled by
appending a snapshot of the current cache to the journal of saved states. -/
def save_cache (saved : List Cache) (cache : Cache) : List Cache :=
  saved ++ [cache]

/-! ### `translate_segments` (translate.py lines 154-189).
The external provider (`DeepLTranslator.translate_batch`, lines 126-138,
a network call) is modelled as an arbitrary function
`tr : List Str -> List Str`; `src`/`tgt` are the translator's language
fields.  The result records the outputs, the final cache, the argument of
every external batch call, and the journal of `save_cache` snapshots.
A Python `IndexError` (raised by `idxs[start + j]` when the provider
returns more results than there are pending segments) is an `Except.error`. -/

structure QItem where
  text : Str
  idx : Nat
  toks : List Str
  deriving DecidableEq, Repr

structure TSRes where
  out : List Str
  cache : Cache
  calls : List (List Str)
  saved : List Cache
  deriving DecidableEq, Repr

/-- Decidable equality on `Except`, needed to evaluate orchestration
results inside concrete theorems. -/
instance exceptDecEq {α β : Type} [DecidableEq α] [DecidableEq β] :
    DecidableEq (Except α β)
  | .error a, .error b =>
    if h : a = b then .isTrue (by rw [h])
    else .isFalse (by intro hc; cases hc; exact h rfl)
  | .ok a, .ok b =>
    if h : a = b then .isTrue (by rw [h])
    else .isFalse (by intro hc; cases hc; exact h rfl)
  | .error _, .ok _ => .isFalse (by intro hc; cases hc)
  | .ok _, .error _ => .isFalse (by intro hc; cases hc)

/-- `BATCH_SIZE = 30` (line 36). -/
def BATCH_SIZE : Nat := 30

/-- Lines 163-173: per-index cache probe.  A prepared segment `p` is served
from the cache only when `p` is nonempty (`if s and key in cache`); every
other segment is queued, keeping its position and token list. -/
def phase2 (src tgt : Str) : List (Str × List Str) → Nat → Cache →
    List (Option Str) × List QItem
  | [], _, _ => ([], [])
  | (p, toks) :: rest, i, cache =>
    let r := phase2 src tgt rest (i + 1) cache
    let key := cache_key (strL "deepl") src tgt p
    if p ≠ [] then
      match lookupC cache key with
      | some v => (some (restore_tokens v toks) :: r.1, r.2)
      | none => (none :: r.1, ⟨p, i, toks⟩ :: r.2)
    else (none :: r.1, ⟨p, i, toks⟩ :: r.2)

/-- Lines 180-185: `for j, tr in enumerate(translated)`.  The `j`-th
returned translation is paired with `idxs[start + j]`, i.e. positionally
with the `j`-th still-pending queued segment; walking past the end of the
pending list is Python's `IndexError`. -/
def applyBatch (src tgt : Str) : List Str → List QItem →
    List (Option Str) → Cache → Except String (List (Option Str) × Cache)
  | [], _, results, cache => .ok (results, cache)
  | _ :: _, [], _, _ => .error "list index out of range"
  | t :: ts, q :: qs, results, cache =>
    let fixed := restore_tokens t q.toks
    applyBatch src tgt ts qs (results.set q.idx (some fixed))
      (setC cache (cache_key (strL "deepl") src tgt q.text) fixed)

/-- Lines 175-187: the batch loop.  Each iteration takes the next
`BATCH_SIZE` pending texts, calls the provider, applies the returned
translations, then persists the cache (`save_cache`); `time.sleep` has no
observable effect in the model.  Fuel `pending.length` suffices because
every iteration drops `BATCH_SIZE ≥ 1` items. -/
def runBatches (tr : List Str → List Str) (src tgt : Str) :
    Nat → List QItem → List (Option Str) → Cache →
    List (List Str) → List Cache →
    Except String (List (Option Str) × Cache × List (List Str) × List Cache)
  | _, [], results, cache, calls, saved => .ok (results, cache, calls, saved)
  | 0, _ :: _, results, cache, calls, saved => .ok (results, cache, calls, saved)
  | f + 1, q :: qs, results, cache, calls, saved =>
    let pending := q :: qs
    let part := (pending.take BATCH_SIZE).map QItem.text
    let translated := tr part
    match applyBatch src tgt translated pending results cache with
    | .error e => .error e
    | .ok (results', cache') =>
      runBatches tr src tgt f (pending.drop BATCH_SIZE) results' cache'
        (calls ++ [part]) (save_cache saved cache')

/-- `translate_segments(translator, segs, cache)` from the source. -/
def translate_segments (tr : List Str → List Str) (src tgt : Str)
    (segs : List Str) (cache : Cache) : Except String TSRes :=
  let prepared := segs.map (fun s => protect_tokens (norm_ws s))
  let p2 := phase2 src tgt prepared 0 cache
  match runBatches tr src tgt p2.2.length p2.2 p2.1 cache [] [] with
  | .error e => .error e
  | .ok (results, cache', calls, saved) =>
    .ok ⟨results.map (fun r => r.getD []), cache', calls, saved⟩

/-! ## Shared concrete fixtures for the claim theorems -/

/-- A well-behaved provider stub: translates `t` to `t ++ "!"`. -/
def markTr (ts : List Str) : List Str := ts.map (fun t => t ++ ['!'])

/-- A faulty provider stub returning only 29 results for any batch. -/
def shortTr (ts : List Str) : List Str := (ts.map (fun t => t ++ ['!'])).take 29

/-- Thirty distinct plain segments `s0` … `s29`. -/
def segs30 : List Str := (List.range 30).map (fun n => 's' :: decDigits n)

/-- Seventy-five distinct plain segments `s0` … `s74`. -/
def segs75 : List Str := (List.range 75).map (fun n => 's' :: decDigits n)

/-! ## Claim theorems -/

/-- C1 (code bug): the round-trip `restore(protect(s)[0], protect(s)[1]) == s`
fails on `s = "{@a[[b]]c}"`.  The `{@...}` pass swallows the placeholder
`§§T0§§` produced by the earlier `[[...]]` pass into token 1, and
`restore_tokens` replaces indices in ascending order, so by the time token 1
re-inserts the text containing `§§T0§§`, the iteration for token 0 has
already happened; the marker `§§T0§§` survives in the final output instead
of `[[b]]`. -/
theorem c1_roundtrip_violation :
    restore_tokens (protect_tokens (strL "\x7b@a[[b]]c\x7d")).1
        (protect_tokens (strL "\x7b@a[[b]]c\x7d")).2
      = strL "\x7b@a§§T0§§c\x7d"
    ∧ strL "\x7b@a§§T0§§c\x7d" ≠ strL "\x7b@a[[b]]c\x7d" := by decide

/-- C2 counterexample: with a provider that returns 29 results for the
30-segment batch, `translate_segments` does NOT fail: it returns `.ok`
(no count-mismatch error is raised anywhere in lines 126-189), and the
30th output is silently padded to the empty string. -/
theorem c2_counterexample :
    (translate_segments shortTr (strL "EN") (strL "FR") segs30 []).map
        (fun r => (r.out.length, r.out.getLast?))
      = .ok (30, some []) := by decide

/-- C2 amended: when the provider returns fewer results than the batch it
was sent, `translate_segments` completes without error; the segments whose
translations are missing keep their `None` slot and are returned as the
empty string, and no cache entry is written for them (here: `s29`). -/
theorem c2_amended :
    (translate_segments shortTr (strL "EN") (strL "FR") segs30 []).map
        (fun r => (r.out,
          lookupC r.cache (cache_key (strL "deepl") (strL "EN") (strL "FR") (strL "s29")),
          r.calls.map List.length))
      = .ok ((segs30.take 29).map (fun t => t ++ ['!']) ++ [[]], none, [30]) := by
  decide

/-- C3 counterexample: `protect_tokens` does not return tokens in order of
first appearance in the input.  In `"3d8 [[x]]"` the dice expression comes
first in the text, but the `[[...]]` pass runs before the dice pass, so the
token list is `["[[x]]", "3d8"]`, not `["3d8", "[[x]]"]`. -/
theorem c3_counterexample :
    (protect_tokens (strL "3d8 [[x]]")).2 ≠ [strL "3d8", strL "[[x]]"] := by
  decide

/-- C3 amended: the placeholder sequence index is shared by all five
pattern classes, but tokens are numbered pass by pass in pattern-class
priority order (`[[...]]`, `{@...}`, `@...`, dice, `/cmd`), left to right
within each pass — not left to right across the whole string.  For the
spec's five-class example the class order coincides with textual order, so
it yields exactly the placeholders `§§T0§§` … `§§T4§§` and the five original
substrings in left-to-right order; on `"3d8 [[x]]"` the two orders differ
and the class-priority numbering is observable. -/
theorem c3_amended :
    protect_tokens (strL "Cast [[/damage]] using \x7b@spell Fireball|phb\x7d at @item.level dealing 3d8 radiant via /roll")
      = (strL "Cast §§T0§§ using §§T1§§ at §§T2§§ dealing §§T3§§ radiant via §§T4§§",
         [strL "[[/damage]]", strL "\x7b@spell Fireball|phb\x7d", strL "@item.level",
          strL "3d8", strL "/roll"])
    ∧ protect_tokens (strL "3d8 [[x]]")
      = (strL "§§T1§§ §§T0§§", [strL "[[x]]", strL "3d8"]) := by decide

/-- C4 (code bug): an empty segment is NOT short-circuited.  The guard
`if s and key in cache` (line 169) only prevents empty segments from being
served from the cache; the `else` branch queues them, so the empty string
is sent to the provider inside a batch (`calls = [[""]]`), the output is
whatever the provider returned for it (here `"X"`, not `""`), and a cache
entry keyed by the empty normalized text is created. -/
theorem c4_empty_segment_sent :
    (translate_segments (fun ts => ts.map (fun t => t ++ ['X']))
        (strL "EN") (strL "FR") [[]] []).map
        (fun r => (r.out, r.calls, r.cache))
      = .ok ([['X']], [[[]]],
          [(cache_key (strL "deepl") (strL "EN") (strL "FR") [], ['X'])]) := by
  decide

/-- C6 counterexample: two segments that differ only in interior whitespace
and are both cache misses in the same `translate_segments` call are BOTH
queued (the cache is only updated after the batch), so the provider receives
the normalized text twice, not at most once. -/
theorem c6_counterexample :
    (translate_segments markTr (strL "EN") (strL "FR")
        [strL "Hello  world", strL "Hello world"] []).map
        (fun r => (r.calls.map (fun c => c.count (strL "Hello world"))).sum)
      = .ok 2 := by decide

/-- C6 amended: the two segments normalize to the same text and therefore
to the same cache key, and at most one cache entry results (the second
write overwrites the first); but within a single call in which both are
cache misses the provider is sent the text twice in one batch.  Only when
the first occurrence is already cached — e.g. in a later call after the
entry has been written — is the provider not called again for that text
(second run: zero external calls). -/
theorem c6_amended :
    cache_key (strL "deepl") (strL "EN") (strL "FR") (norm_ws (strL "Hello  world"))
      = cache_key (strL "deepl") (strL "EN") (strL "FR") (norm_ws (strL "Hello world"))
    ∧ (translate_segments markTr (strL "EN") (strL "FR")
          [strL "Hello  world", strL "Hello world"] []).map
          (fun r => (r.out, r.cache.length, r.calls))
        = .ok ([strL "Hello world!", strL "Hello world!"], 1,
            [[strL "Hello world", strL "Hello world"]])
    ∧ (translate_segments markTr (strL "EN") (strL "FR") [strL "Hello world"]
          [(cache_key (strL "deepl") (strL "EN") (strL "FR") (strL "Hello world"),
            strL "Hello world!")]).map
          (fun r => (r.out, r.calls))
        = .ok ([strL "Hello world!"], []) := by decide

/-! ## Structure of placeholders, towards the general `restore_tokens`
characterization (C7) -/

/-- The string contains no marker character `§`. -/
def sFree (s : Str) : Prop := '§' ∉ s

instance sFree.decidable : DecidablePred sFree := fun s =>
  inferInstanceAs (Decidable ('§' ∉ s))

theorem digitChar_toNat {n : Nat} (h : n < 10) : (digitChar n).toNat = 48 + n := by
  interval_cases n <;> decide

theorem digitChar_ne_marker {n : Nat} (h : n < 10) : digitChar n ≠ '§' := by
  interval_cases n <;> decide

theorem decDigitsGo_marker_free : ∀ f n, n < f → '§' ∉ decDigitsGo f n := by
  intro f
  induction f with
  | zero => intro n h; omega
  | succ f ih =>
    intro n h
    by_cases h10 : n < 10
    · simp [decDigitsGo, h10]
      exact fun hc => digitChar_ne_marker h10 hc.symm
    · have hdiv : n / 10 < f := by
        have h1 : n / 10 < n := Nat.div_lt_self (by omega) (by omega)
        omega
      simp [decDigitsGo, h10]
      constructor
      · exact ih (n / 10) hdiv
      · exact fun hc => digitChar_ne_marker (Nat.mod_lt n (by omega)) hc.symm

theorem decDigits_marker_free (n : Nat) : '§' ∉ decDigits n :=
  decDigitsGo_marker_free (n + 1) n (Nat.lt_succ_self n)

/-- Numeric value of a decimal digit string. -/
def valDigits (ds : List Char) : Nat :=
  ds.foldl (fun a c => a * 10 + (c.toNat - 48)) 0

theorem valDigits_append_digit (ds : List Char) (c : Char) :
    valDigits (ds ++ [c]) = valDigits ds * 10 + (c.toNat - 48) := by
  simp [valDigits, List.foldl_append]

theorem decDigitsGo_val : ∀ f n, n < f → valDigits (decDigitsGo f n) = n := by
  intro f
  induction f with
  | zero => intro n h; omega
  | succ f ih =>
    intro n h
    by_cases h10 : n < 10
    · simp [decDigitsGo, h10, valDigits, digitChar_toNat h10]
    · have hdiv : n / 10 < f := by
        have h1 : n / 10 < n := Nat.div_lt_self (by omega) (by omega)
        omega
      have hmod : n % 10 < 10 := Nat.mod_lt n (by omega)
      simp only [decDigitsGo, h10, if_false]
      rw [valDigits_append_digit, ih (n / 10) hdiv, digitChar_toNat hmod]
      omega

theorem decDigits_val (n : Nat) : valDigits (decDigits n) = n :=
  decDigitsGo_val (n + 1) n (Nat.lt_succ_self n)

theorem decDigits_inj {m n : Nat} (h : decDigits m = decDigits n) : m = n := by
  have := congrArg valDigits h
  rwa [decDigits_val, decDigits_val] at this

/-- Two marker-free blocks followed by a `§` section must agree. -/
theorem marker_cancel : ∀ (d1 d2 x y : Str), sFree d1 → sFree d2 →
    d1 ++ '§' :: x = d2 ++ '§' :: y → d1 = d2 ∧ x = y := by
  intro d1
  induction d1 with
  | nil =>
    intro d2 x y _ h2 h
    cases d2 with
    | nil => simpa using h
    | cons c d2' =>
      simp at h
      exact absurd (h.1 ▸ List.mem_cons_self c d2') h2
  | cons c d1' ih =>
    intro d2 x y h1 h2 h
    cases d2 with
    | nil =>
      simp at h
      exact absurd (h.1 ▸ List.mem_cons_self c d1') h1
    | cons c2 d2' =>
      simp only [List.cons_append, List.cons.injEq] at h
      have h1' : sFree d1' := fun hc => h1 (List.mem_cons_of_mem c hc)
      have h2' : sFree d2' := fun hc => h2 (List.mem_cons_of_mem c2 hc)
      have := ih d2' x y h1' h2' h.2
      exact ⟨by rw [h.1, this.1], this.2⟩

/-- A placeholder at the head of a string determines its index and the
remainder (marker-free tail). -/
theorem ph_pfx_eq {i k : Nat} {r b : Str}
    (h : ph i ++ r = ph k ++ b) : i = k ∧ r = b := by
  simp only [ph, List.cons_append, List.cons.injEq, true_and] at h
  have h' : decDigits i ++ '§' :: ('§' :: r) = decDigits k ++ '§' :: ('§' :: b) := by
    simpa using h
  have := marker_cancel _ _ _ _ (decDigits_marker_free i) (decDigits_marker_free k) h'
  refine ⟨decDigits_inj this.1, ?_⟩
  have := this.2
  simpa using this

/-- Occurrence of `pat` as a contiguous substring. -/
def Occurs (pat s : Str) : Prop := ∃ x y, s = x ++ pat ++ y

theorem marker_mem_ph (i : Nat) : '§' ∈ ph i := by simp [ph]

theorem not_occurs_of_sFree {i : Nat} {s : Str} (h : sFree s) : ¬ Occurs (ph i) s := by
  rintro ⟨x, y, rfl⟩
  exact h (by simp [marker_mem_ph i])

theorem ph_ne_nil (i : Nat) : ph i ≠ [] := by simp [ph]

theorem replaceAll_of_not_occurs {pat s rep : Str} (hp : pat ≠ [])
    (h : ¬ Occurs pat s) : replaceAll s pat rep = s := by
  induction s with
  | nil => exact replaceAll_nil pat rep
  | cons c cs ih =>
    have hnone : stripPfx pat (c :: cs) = none := by
      apply stripPfx_none_of_ne
      intro rest hc
      exact h ⟨[], rest, by simpa using hc⟩
    rw [replaceAll_cons_nomatch hp hnone]
    congr 1
    apply ih
    rintro ⟨x, y, hxy⟩
    exact h ⟨c :: x, y, by simp [hxy]⟩

/-- Scanning a marker-free block never matches a pattern that starts with
the marker, so replacement distributes over such a block. -/
theorem replaceAll_sfree_left {u v pat rep : Str} (hu : sFree u)
    (hp : pat.head? = some '§') :
    replaceAll (u ++ v) pat rep = u ++ replaceAll v pat rep := by
  have hpne : pat ≠ [] := by cases pat <;> simp_all
  induction u with
  | nil => simp
  | cons c u' ih =>
    have hc : c ≠ '§' := fun hc => hu (hc ▸ List.mem_cons_self c u')
    have hnone : stripPfx pat (c :: (u' ++ v)) = none := by
      cases pat with
      | nil => simp at hpne
      | cons p ps =>
        have hps : p = '§' := by simpa using hp
        subst hps
        simp only [stripPfx]
        rw [if_neg (fun h => hc h.symm)]
    rw [List.cons_append, replaceAll_cons_nomatch hpne hnone]
    rw [ih (fun hm => hu (List.mem_cons_of_mem c hm))]
    rw [List.cons_append]

/-- Replacing `ph k` at the head of `ph k ++ b` with a marker-free tail. -/
theorem replaceAll_ph_hit {k : Nat} {b rep : Str} (hb : sFree b) :
    replaceAll (ph k ++ b) (ph k) rep = rep ++ b := by
  rw [replaceAll_cons_match (ph_ne_nil k) (stripPfx_self_append (ph k) b)]
  rw [replaceAll_of_not_occurs (ph_ne_nil k) (not_occurs_of_sFree hb)]

/-- A placeholder with a different index is left alone. -/
theorem replaceAll_ph_miss {i k : Nat} {b rep : Str} (hik : i ≠ k)
    (hb : sFree b) : replaceAll (ph k ++ b) (ph i) rep = ph k ++ b := by
  have hphne := ph_ne_nil i
  -- position 0: a match would force i = k
  have h0 : stripPfx (ph i) (ph k ++ b) = none := by
    apply stripPfx_none_of_ne
    intro rest hc
    exact hik (ph_pfx_eq hc.symm).1
  -- positions 1 and 2: the pattern's second character is `§`, the text has
  -- `§` then `T`, so no match can start there
  have h1 : stripPfx (ph i) ('§' :: 'T' :: (decDigits k ++ ['§', '§'] ++ b)) = none := by
    simp [ph, stripPfx]
  -- after the digits: `§ § b` with `b` marker-free cannot contain the
  -- pattern's `T`-and-trailing-marker section
  have h3 : stripPfx (ph i) ('§' :: '§' :: b) = none := by
    apply stripPfx_none_of_ne
    intro rest hc
    apply hb
    have : b = 'T' :: (decDigits i ++ ['§', '§'] ++ rest) := by
      simpa [ph] using hc
    rw [this]
    simp
  have h4 : stripPfx (ph i) ('§' :: b) = none := by
    apply stripPfx_none_of_ne
    intro rest hc
    apply hb
    have : b = '§' :: ('T' :: (decDigits i ++ ['§', '§'] ++ rest)) := by
      simpa [ph] using hc
    rw [this]
    simp
  have hb' : replaceAll b (ph i) rep = b :=
    replaceAll_of_not_occurs hphne (not_occurs_of_sFree hb)
  have hstep0 : ph k ++ b
      = '§' :: ('§' :: ('T' :: decDigits k ++ ('§' :: '§' :: b))) := by
    simp [ph]
  rw [hstep0] at h0 ⊢
  rw [replaceAll_cons_nomatch hphne h0]
  have h1' : stripPfx (ph i) ('§' :: ('T' :: decDigits k ++ ('§' :: '§' :: b))) = none := by
    have : ('§' :: 'T' :: (decDigits k ++ ['§', '§'] ++ b))
        = ('§' :: ('T' :: decDigits k ++ ('§' :: '§' :: b))) := by simp
    rwa [this] at h1
  rw [replaceAll_cons_nomatch hphne h1']
  have hTd : sFree ('T' :: decDigits k) := by
    intro hm
    rcases List.mem_cons.mp hm with h | h
    · cases h
    · exact decDigits_marker_free k h
  rw [replaceAll_sfree_left hTd (by simp [ph])]
  rw [replaceAll_cons_nomatch hphne h3, replaceAll_cons_nomatch hphne h4, hb']

/-- `restore_tokens` leaves a marker-free string untouched. -/
theorem restoreAux_sfree {s : Str} (hs : sFree s) :
    ∀ ts i, restoreAux s i ts = s := by
  intro ts
  induction ts with
  | nil => intro i; rfl
  | cons t ts ih =>
    intro i
    show restoreAux (replaceAll s (ph i) t) (i + 1) ts = s
    rw [replaceAll_of_not_occurs (ph_ne_nil i) (not_occurs_of_sFree hs)]
    exact ih (i + 1)

/-- Behaviour of the ascending-index replacement loop on a text consisting
of a single placeholder between marker-free blocks: the placeholder is
substituted exactly when its index falls in the processed range. -/
theorem restoreAux_ph_main : ∀ (ts : List Str) (i k : Nat) (a b : Str),
    sFree a → sFree b → (∀ t ∈ ts, sFree t) →
    restoreAux (a ++ (ph k ++ b)) i ts
      = a ++ ((if i ≤ k ∧ k < i + ts.length then ts.getD (k - i) [] else ph k) ++ b) := by
  intro ts
  induction ts with
  | nil =>
    intro i k a b _ _ _
    have hno : ¬ (i ≤ k ∧ k < i + ([] : List Str).length) := by
      simp only [List.length_nil, Nat.add_zero]
      omega
    rw [if_neg hno]
    rfl
  | cons t ts ih =>
    intro i k a b ha hb ht
    have hhead : (ph i).head? = some '§' := by simp [ph]
    show restoreAux (replaceAll (a ++ (ph k ++ b)) (ph i) t) (i + 1) ts = _
    rw [replaceAll_sfree_left ha hhead]
    by_cases hik : i = k
    · subst hik
      rw [replaceAll_ph_hit hb]
      have hfree : sFree (a ++ (t ++ b)) := by
        intro hm
        simp only [List.mem_append] at hm
        rcases hm with h | h | h
        · exact ha h
        · exact ht t (List.mem_cons_self t ts) h
        · exact hb h
      rw [restoreAux_sfree hfree ts (i + 1)]
      rw [if_pos ⟨Nat.le_refl i, by simp only [List.length_cons]; omega⟩]
      simp
    · rw [replaceAll_ph_miss hik hb]
      rw [ih (i + 1) k a b ha hb (fun x hx => ht x (List.mem_cons_of_mem t hx))]
      by_cases hcond : i + 1 ≤ k ∧ k < i + 1 + ts.length
      · rw [if_pos hcond, if_pos (by simp only [List.length_cons]; omega)]
        have hki : k - i = (k - (i + 1)) + 1 := by omega
        rw [hki, List.getD_cons_succ]
      · rw [if_neg hcond, if_neg (by simp only [List.length_cons]; omega)]

/-- C7 counterexample: `restore_tokens` does not replace each placeholder
with its entry.  With text `§§T0§§` and token list `["§§T1§§", "X"]` the
claim's reading demands the output `§§T1§§` (the entry at index 0); but
the ascending loop first rewrites the text to `§§T1§§` and the iteration
for index 1 then rewrites that to `"X"`. -/
theorem c7_counterexample :
    restore_tokens (ph 0) [ph 1, ['X']] = ['X'] ∧ (['X'] : Str) ≠ ph 1 := by
  decide

/-- C7 amended: `restore_tokens` performs global replacement for indices
`0, 1, …` in ascending order, so an entry that itself contains placeholder
text is rewritten again by later iterations (and overlapping placeholder
occurrences in the text can destroy one another).  Provided the token
entries and the text surrounding a placeholder are free of the marker
character `§`, a placeholder `§§T<k>§§` is replaced by entry `k` when the
token list has one, and is left unchanged in the output — with no error —
when `k` is out of range. -/
theorem c7_amended (toks : List Str) (a b : Str) (k : Nat)
    (ha : sFree a) (hb : sFree b) (ht : ∀ t ∈ toks, sFree t) :
    restore_tokens (a ++ (ph k ++ b)) toks = a ++ (toks.getD k (ph k) ++ b) := by
  unfold restore_tokens
  rw [restoreAux_ph_main toks 0 k a b ha hb ht]
  by_cases hk : k < toks.length
  · rw [if_pos (by omega)]
    congr 2
    rw [Nat.sub_zero, List.getD_eq_getElem _ _ hk, List.getD_eq_getElem _ _ hk]
  · rw [if_neg (by omega)]
    rw [List.getD_eq_default _ _ (by omega)]

/-- C7 witness: concrete instance of `c7_amended` with an in-range and the
definitions evaluated. -/
theorem c7_witness :
    sFree (strL "x ") ∧ sFree (strL "!") ∧ (∀ t ∈ [strL "A", strL "B"], sFree t) ∧
    restore_tokens (strL "x " ++ (ph 1 ++ strL "!")) [strL "A", strL "B"]
      = strL "x " ++ (List.getD [strL "A", strL "B"] 1 (ph 1) ++ strL "!") :=
  ⟨by decide, by decide, by decide,
    c7_amended [strL "A", strL "B"] (strL "x ") (strL "!") 1
      (by decide) (by decide) (by decide)⟩

/-! ## Machinery for `norm_ws` idempotence (C10) -/

/-- Executable substring test (used as a decidable hypothesis). -/
def containsSub (pat : Str) : Str → Bool
  | [] => (stripPfx pat []).isSome
  | c :: cs => (stripPfx pat (c :: cs)).isSome || containsSub pat cs

theorem containsSub_iff (pat : Str) : ∀ s, containsSub pat s = true ↔ Occurs pat s := by
  intro s
  induction s with
  | nil =>
    simp only [containsSub, Option.isSome_iff_exists]
    constructor
    · rintro ⟨rest, hrest⟩
      have h := stripPfx_eq_some.mp hrest
      have hp : pat = [] := by
        cases pat with
        | nil => rfl
        | cons p ps => exact absurd h.symm (List.cons_ne_nil p (ps ++ rest))
      exact ⟨[], [], by simp [hp]⟩
    · rintro ⟨x, y, hxy⟩
      have h0 : (x ++ pat) ++ y = [] := by simpa using hxy.symm
      have h1 := List.append_eq_nil.mp h0
      have h2 := List.append_eq_nil.mp h1.1
      exact ⟨[], by simp [h2.2, stripPfx]⟩
  | cons c cs ih =>
    simp only [containsSub, Bool.or_eq_true, Option.isSome_iff_exists, ih]
    constructor
    · rintro (⟨rest, hrest⟩ | ⟨x, y, hxy⟩)
      · exact ⟨[], rest, by simpa using stripPfx_eq_some.mp hrest⟩
      · exact ⟨c :: x, y, by simp [hxy]⟩
    · rintro ⟨x, y, hxy⟩
      cases x with
      | nil =>
        exact Or.inl ⟨y, stripPfx_eq_some.mpr (by simpa using hxy)⟩
      | cons x0 xs =>
        simp only [List.cons_append, List.cons.injEq] at hxy
        exact Or.inr ⟨xs, y, hxy.2⟩

theorem containsSub_false_iff {pat s : Str} :
    containsSub pat s = false ↔ ¬ Occurs pat s := by
  rw [← containsSub_iff pat s]
  cases containsSub pat s <;> simp

/-- An occurrence inside either side of an append occurs in the whole. -/
theorem not_occurs_append_left {pat t r : Str} (h : ¬ Occurs pat (t ++ r)) :
    ¬ Occurs pat t := by
  rintro ⟨x, y, rfl⟩
  exact h ⟨x, y ++ r, by simp⟩

theorem not_occurs_append_right {pat t r : Str} (h : ¬ Occurs pat (r ++ t)) :
    ¬ Occurs pat t := by
  rintro ⟨x, y, rfl⟩
  exact h ⟨r ++ x, y, by simp⟩

theorem not_occurs_cons_of {pat t : Str} {c : Char}
    (hhd : ∀ rest, c :: t ≠ pat ++ rest) (h : ¬ Occurs pat t) :
    ¬ Occurs pat (c :: t) := by
  rintro ⟨x, y, hxy⟩
  cases x with
  | nil => exact hhd y (by simpa using hxy)
  | cons x0 xs =>
    simp only [List.cons_append, List.cons.injEq] at hxy
    exact h ⟨xs, y, hxy.2⟩

theorem not_occurs_of_cons {pat t : Str} {c : Char}
    (h : ¬ Occurs pat (c :: t)) : ¬ Occurs pat t := by
  rintro ⟨x, y, rfl⟩
  exact h ⟨c :: x, y, by simp⟩

/-- The `"\r\r\n"` pattern whose absence makes `norm_ws` idempotent. -/
def RRN : Str := ['\r', '\r', '\n']

theorem cons_eq_two {c b1 b2 : Char} {X r : Str} (h : c :: X = b1 :: b2 :: r) :
    c = b1 ∧ X.head? = some b2 ∧ X = b2 :: r := by
  have h1 := List.cons.inj h
  exact ⟨h1.1, by rw [h1.2]; rfl, h1.2⟩

/-- After the CRLF pass, no `"\r\n"` remains — unless the input contained
`"\r\r\n"`, where the rewrite itself creates a fresh CRLF pair.  The second
conjunct tracks where a leading `'\n'` of the output can come from. -/
theorem crlf_aux : ∀ f s, s.length ≤ f → ¬ Occurs RRN s →
    ¬ Occurs CRLF (rAll CRLF ['\n'] f s) ∧
    ((rAll CRLF ['\n'] f s).head? = some '\n' →
      s.head? = some '\n' ∨ ∃ rest, s = '\r' :: '\n' :: rest) := by
  intro f
  induction f with
  | zero =>
    intro s hf _
    have hd : s = [] := List.length_eq_zero.mp (Nat.le_zero.mp hf)
    subst hd
    constructor
    · rintro ⟨x, y, hxy⟩
      simp [rAll, CRLF] at hxy
    · intro h
      simp [rAll] at h
  | succ f ih =>
    intro s hf hs
    cases s with
    | nil =>
      constructor
      · rintro ⟨x, y, hxy⟩
        simp [rAll, CRLF] at hxy
      · intro h
        simp [rAll] at h
    | cons c cs =>
      cases hm : stripPfx CRLF (c :: cs) with
      | some rest =>
        have hsplit : c :: cs = '\r' :: '\n' :: rest :=
          stripPfx_eq_some.mp hm
        have hparts := cons_eq_two hsplit
        have hrest : ¬ Occurs RRN rest := by
          have h1 := not_occurs_of_cons hs
          rw [hparts.2.2] at h1
          exact not_occurs_of_cons h1
        have hlen : rest.length ≤ f := by
          have h2 : (c :: cs).length = rest.length + 2 := by
            rw [hsplit]; simp
          omega
        have hih := ih rest hlen hrest
        have hres : rAll CRLF ['\n'] (f + 1) (c :: cs)
            = '\n' :: rAll CRLF ['\n'] f rest := by
          simp [rAll, hm]
        rw [hres]
        constructor
        · apply not_occurs_cons_of
          · intro r hr
            have hr' : '\n' :: rAll CRLF ['\n'] f rest = '\r' :: '\n' :: r := hr
            exact absurd (cons_eq_two hr').1 (by decide)
          · exact hih.1
        · intro _
          exact Or.inr ⟨rest, hsplit⟩
      | none =>
        have hcs : ¬ Occurs RRN cs := not_occurs_of_cons hs
        have hlen : cs.length ≤ f := by simp at hf; omega
        have hih := ih cs hlen hcs
        have hres : rAll CRLF ['\n'] (f + 1) (c :: cs)
            = c :: rAll CRLF ['\n'] f cs := by
          simp [rAll, hm]
        rw [hres]
        have hnotpfx : ∀ rest, c :: cs ≠ CRLF ++ rest := by
          intro rest hr
          rw [hr, stripPfx_self_append] at hm
          cases hm
        constructor
        · apply not_occurs_cons_of
          · intro r hr
            have hr' : c :: rAll CRLF ['\n'] f cs = '\r' :: '\n' :: r := hr
            have hp := cons_eq_two hr'
            rcases hih.2 hp.2.1 with h | ⟨rest', hrest'⟩
            · cases cs with
              | nil => simp at h
              | cons c2 cs2 =>
                have h2 : c2 = '\n' := by simpa using h
                exact hnotpfx cs2 (by simp [CRLF, hp.1, h2])
            · exact hs ⟨[], rest', by simp [RRN, hp.1, hrest']⟩
          · exact hih.1
        · intro hh
          have hc : c = '\n' := by simpa using hh
          exact Or.inl (by simp [hc])

/-- First emitted character of a collapse in in-run state is never a
space or tab. -/
theorem collapseGo_true_head : ∀ s c, (collapseGo true s).head? = some c →
    isHT c = false := by
  intro s
  induction s with
  | nil => intro c h; simp [collapseGo] at h
  | cons x xs ih =>
    intro c h
    by_cases hx : isHT x
    · rw [show collapseGo true (x :: xs) = collapseGo true xs by
        simp [collapseGo, hx]] at h
      exact ih c h
    · rw [show collapseGo true (x :: xs) = x :: collapseGo false xs by
        simp [collapseGo, hx]] at h
      simp at h
      rw [← h]
      simpa using hx

/-- First emitted character of a collapse in initial state is a space or
comes from the head of the input. -/
theorem collapseGo_false_head : ∀ s c, (collapseGo false s).head? = some c →
    c = ' ' ∨ s.head? = some c := by
  intro s c h
  cases s with
  | nil => simp [collapseGo] at h
  | cons x xs =>
    by_cases hx : isHT x
    · rw [show collapseGo false (x :: xs) = ' ' :: collapseGo true xs by
        simp [collapseGo, hx]] at h
      simp at h
      exact Or.inl h.symm
    · rw [show collapseGo false (x :: xs) = x :: collapseGo false xs by
        simp [collapseGo, hx]] at h
      simp at h
      exact Or.inr (by simp [h])

/-- Collapsing preserves the absence of `"\r\n"`. -/
theorem collapse_no_crlf : ∀ s b, ¬ Occurs CRLF s → ¬ Occurs CRLF (collapseGo b s) := by
  intro s
  induction s with
  | nil =>
    intro b _
    rintro ⟨x, y, hxy⟩
    simp [collapseGo, CRLF] at hxy
  | cons c cs ih =>
    intro b hs
    have hcs := not_occurs_of_cons hs
    by_cases hc : isHT c
    · cases b with
      | true =>
        rw [show collapseGo true (c :: cs) = collapseGo true cs by
          simp [collapseGo, hc]]
        exact ih true hcs
      | false =>
        rw [show collapseGo false (c :: cs) = ' ' :: collapseGo true cs by
          simp [collapseGo, hc]]
        apply not_occurs_cons_of
        · intro r hr
          simp [CRLF] at hr
        · exact ih true hcs
    · rw [show collapseGo b (c :: cs) = c :: collapseGo false cs by
        simp [collapseGo, hc]]
      apply not_occurs_cons_of
      · intro r hr
        have hr' : c :: collapseGo false cs = '\r' :: '\n' :: r := hr
        have hp := cons_eq_two hr'
        have hcr : c = '\r' := hp.1
        rcases collapseGo_false_head cs '\n' hp.2.1 with h | h
        · cases h
        · cases cs with
          | nil => simp at h
          | cons c2 cs2 =>
            have : c2 = '\n' := by simpa using h
            exact hs ⟨[], cs2, by simp [CRLF, hcr, this]⟩
      · exact ih false hcs

/-- Collapsing never emits a tab. -/
theorem collapse_no_tab : ∀ s b, '\t' ∉ collapseGo b s := by
  intro s
  induction s with
  | nil => intro b; simp [collapseGo]
  | cons c cs ih =>
    intro b
    by_cases hc : isHT c
    · cases b with
      | true =>
        rw [show collapseGo true (c :: cs) = collapseGo true cs by
          simp [collapseGo, hc]]
        exact ih true
      | false =>
        rw [show collapseGo false (c :: cs) = ' ' :: collapseGo true cs by
          simp [collapseGo, hc]]
        intro hm
        rcases List.mem_cons.mp hm with h | h
        · cases h
        · exact ih true h
    · rw [show collapseGo b (c :: cs) = c :: collapseGo false cs by
        simp [collapseGo, hc]]
      intro hm
      rcases List.mem_cons.mp hm with h | h
      · exact hc (by rw [← h]; decide)
      · exact ih false h

/-- Collapsing never emits two adjacent spaces. -/
theorem collapse_no_dbl : ∀ s b, ¬ Occurs [' ', ' '] (collapseGo b s) := by
  intro s
  induction s with
  | nil =>
    intro b
    rintro ⟨x, y, hxy⟩
    simp [collapseGo] at hxy
  | cons c cs ih =>
    intro b
    by_cases hc : isHT c
    · cases b with
      | true =>
        rw [show collapseGo true (c :: cs) = collapseGo true cs by
          simp [collapseGo, hc]]
        exact ih true
      | false =>
        rw [show collapseGo false (c :: cs) = ' ' :: collapseGo true cs by
          simp [collapseGo, hc]]
        apply not_occurs_cons_of
        · intro r hr
          have hr' : ' ' :: collapseGo true cs = ' ' :: ' ' :: r := hr
          have hp := cons_eq_two hr'
          have := collapseGo_true_head cs ' ' hp.2.1
          simp [isHT] at this
        · exact ih true
    · rw [show collapseGo b (c :: cs) = c :: collapseGo false cs by
        simp [collapseGo, hc]]
      apply not_occurs_cons_of
      · intro r hr
        have hr' : c :: collapseGo false cs = ' ' :: ' ' :: r := hr
        have hp := cons_eq_two hr'
        exact hc (by rw [hp.1]; decide)
      · exact ih false

/-- A tab-free, double-space-free string is a collapse fixpoint. -/
theorem collapse_id : ∀ s, '\t' ∉ s → ¬ Occurs [' ', ' '] s →
    collapseGo false s = s := by
  intro s
  induction s with
  | nil => intro _ _; rfl
  | cons c cs ih =>
    intro htab hdbl
    have htab' : '\t' ∉ cs := fun h => htab (List.mem_cons_of_mem c h)
    have hdbl' := not_occurs_of_cons hdbl
    by_cases hc : isHT c
    · have hor : c = ' ' ∨ c = '\t' := by simpa [isHT] using hc
      have hcsp : c = ' ' := by
        rcases hor with h | h
        · exact h
        · subst h
          exact absurd (List.mem_cons_self _ _) htab
      subst hcsp
      rw [show collapseGo false (' ' :: cs) = ' ' :: collapseGo true cs by
        simp [collapseGo, isHT]]
      congr 1
      cases cs with
      | nil => rfl
      | cons x xs =>
        have hx : ¬ isHT x = true := by
          intro hxx
          have hor' : x = ' ' ∨ x = '\t' := by simpa [isHT] using hxx
          rcases hor' with h | h
          · subst h
            exact hdbl ⟨[], xs, by simp⟩
          · subst h
            exact htab' (List.mem_cons_self _ _)
        rw [show collapseGo true (x :: xs) = x :: collapseGo false xs by
          simp [collapseGo, hx]]
        have hres := ih htab' hdbl'
        rw [show collapseGo false (x :: xs) = x :: collapseGo false xs by
          simp [collapseGo, hx]] at hres
        exact hres
    · rw [show collapseGo false (c :: cs) = c :: collapseGo false cs by
        simp [collapseGo, hc]]
      rw [ih htab' hdbl']

/-- `rstrip` returns a prefix of its input. -/
theorem rstrip_prefix : ∀ s : Str, ∃ r, s = rstrip s ++ r := by
  intro s
  induction s with
  | nil => exact ⟨[], rfl⟩
  | cons c cs ih =>
    rcases ih with ⟨r, hr⟩
    cases hcs : rstrip cs with
    | nil =>
      by_cases hc : pyWs c
      · exact ⟨c :: cs, by simp [rstrip, hcs, hc]⟩
      · refine ⟨cs, ?_⟩
        rw [show rstrip (c :: cs) = [c] by simp [rstrip, hcs, hc]]
        rfl
    | cons d ds =>
      refine ⟨r, ?_⟩
      rw [show rstrip (c :: cs) = c :: d :: ds by simp [rstrip, hcs]]
      rw [hcs] at hr
      simpa using hr

/-- `rstrip` is idempotent. -/
theorem rstrip_idem : ∀ s : Str, rstrip (rstrip s) = rstrip s := by
  intro s
  induction s with
  | nil => rfl
  | cons c cs ih =>
    cases hcs : rstrip cs with
    | nil =>
      by_cases hc : pyWs c
      · rw [show rstrip (c :: cs) = [] by simp [rstrip, hcs, hc]]
        rfl
      · rw [show rstrip (c :: cs) = [c] by simp [rstrip, hcs, hc]]
        show rstrip [c] = [c]
        simp [rstrip, hc]
    | cons d ds =>
      rw [show rstrip (c :: cs) = c :: d :: ds by simp [rstrip, hcs]]
      rw [hcs] at ih
      have h1 : rstrip (c :: d :: ds) = match rstrip (d :: ds) with
        | [] => if pyWs c then [] else [c]
        | d' :: ds' => c :: d' :: ds' := rfl
      rw [h1, ih]

/-- The head surviving `rstrip` is the original head. -/
theorem rstrip_head : ∀ s : Str, rstrip s = [] ∨ (rstrip s).head? = s.head? := by
  intro s
  cases s with
  | nil => exact Or.inl rfl
  | cons c cs =>
    cases hcs : rstrip cs with
    | nil =>
      by_cases hc : pyWs c
      · exact Or.inl (by simp [rstrip, hcs, hc])
      · exact Or.inr (by simp [rstrip, hcs, hc])
    | cons d ds => exact Or.inr (by simp [rstrip, hcs])

theorem dropWhile_head_false (p : Char → Bool) :
    ∀ (s : Str) (c : Char), (s.dropWhile p).head? = some c → p c = false := by
  intro s
  induction s with
  | nil => intro c h; simp at h
  | cons x xs ih =>
    intro c h
    by_cases hx : p x
    · rw [List.dropWhile_cons_of_pos hx] at h
      exact ih c h
    · rw [List.dropWhile_cons_of_neg hx] at h
      simp at h
      rw [← h]
      simpa using hx

theorem dropWhile_id_of (p : Char → Bool) (t : Str)
    (h : ∀ c, t.head? = some c → p c = false) : t.dropWhile p = t := by
  cases t with
  | nil => rfl
  | cons c cs =>
    have := h c rfl
    rw [List.dropWhile_cons_of_neg (by simp [this])]

/-- `strip` is idempotent. -/
theorem strip_idem (s : Str) : strip (strip s) = strip s := by
  unfold strip
  set u := s.dropWhile pyWs with hu
  have hdw : (rstrip u).dropWhile pyWs = rstrip u := by
    apply dropWhile_id_of
    intro c hc
    rcases rstrip_head u with h | h
    · rw [h] at hc; simp at hc
    · exact dropWhile_head_false pyWs s c (by rw [← hu, ← h, hc])
  rw [hdw, rstrip_idem]

/-- `strip` preserves the absence of any substring. -/
theorem not_occurs_strip {pat s : Str} (h : ¬ Occurs pat s) :
    ¬ Occurs pat (strip s) := by
  unfold strip
  have h1 : ¬ Occurs pat (s.dropWhile pyWs) := by
    have := List.takeWhile_append_dropWhile (p := pyWs) (l := s)
    exact not_occurs_append_right (by rw [this]; exact h)
  rcases rstrip_prefix (s.dropWhile pyWs) with ⟨r, hr⟩
  exact not_occurs_append_left (by rw [← hr]; exact h1)

/-- `strip` preserves the absence of any character. -/
theorem not_mem_strip {x : Char} {s : Str} (h : x ∉ s) : x ∉ strip s := by
  intro hm
  apply h
  unfold strip at hm
  rcases rstrip_prefix (s.dropWhile pyWs) with ⟨r, hr⟩
  have h1 : x ∈ s.dropWhile pyWs := by
    rw [hr]
    exact List.mem_append_left r hm
  have h2 := List.takeWhile_append_dropWhile (p := pyWs) (l := s)
  rw [← h2]
  exact List.mem_append_right _ h1

/-- C10 counterexample: `norm_ws` is not idempotent.  On `"a\r\r\nb"` the
CRLF pass rewrites the second `"\r\n"` and thereby lays the first `'\r'`
next to the new `'\n'`; a second application collapses that fresh pair
again. -/
theorem c10_counterexample :
    norm_ws (norm_ws (strL "a\r\r\nb")) ≠ norm_ws (strL "a\r\r\nb") := by
  decide

/-- C10 amended: `norm_ws` is idempotent on every string that does not
contain the substring `"\r\r\n"`.  (The counterexample forces exactly this
exclusion: a fresh `"\r\n"` can appear in the output only when a `'\r'`
immediately precedes a rewritten `"\r\n"`.) -/
theorem c10_amended (s : Str) (h : containsSub RRN s = false) :
    norm_ws (norm_ws s) = norm_ws s := by
  have hocc : ¬ Occurs RRN s := containsSub_false_iff.mp h
  have hCR : CRLF ≠ [] := by simp [CRLF]
  set u := replaceAll s CRLF ['\n'] with hu
  set v := collapse u with hv
  have h1 : ¬ Occurs CRLF u := by
    rw [hu]
    unfold replaceAll
    rw [if_neg hCR]
    exact (crlf_aux s.length s (le_refl _) hocc).1
  have h2 : ¬ Occurs CRLF v := collapse_no_crlf u false h1
  have h3 : ¬ Occurs CRLF (strip v) := not_occurs_strip h2
  have h4 : '\t' ∉ strip v := not_mem_strip (collapse_no_tab u false)
  have h6 : ¬ Occurs [' ', ' '] (strip v) := not_occurs_strip (collapse_no_dbl u false)
  show norm_ws (strip v) = strip v
  unfold norm_ws
  rw [replaceAll_of_not_occurs hCR h3]
  rw [show collapse (strip v) = strip v from collapse_id _ h4 h6]
  exact strip_idem v

/-- C10 witness: concrete instance of the amended idempotence. -/
theorem c10_witness :
    containsSub RRN (strL " a \r\n b ") = false ∧
    norm_ws (norm_ws (strL " a \r\n b ")) = norm_ws (strL " a \r\n b ") :=
  ⟨by decide, c10_amended (strL " a \r\n b ") (by decide)⟩

/-! ## Orchestration invariants (C5, C8, C9) -/

/-- C8: `load_cache` yields the empty cache both when the store file is
missing (`CACHE_PATH.exists()` false) and when its contents fail to parse
(`json.loads` raises, caught by the bare `except`); no error escapes. -/
theorem c8_load_cache (parse : Str → Option Cache) (s : Str) :
    load_cache none parse = [] ∧ (parse s = none → load_cache (some s) parse = []) := by
  constructor
  · rfl
  · intro h
    simp [load_cache, h]

/-- C8 witness: a parser that always fails, on arbitrary contents. -/
theorem c8_witness :
    load_cache none (fun _ => none) = []
    ∧ load_cache (some (strL "garbage")) (fun _ => none) = [] :=
  ⟨(c8_load_cache (fun _ => none) (strL "garbage")).1,
   (c8_load_cache (fun _ => none) (strL "garbage")).2 rfl⟩

/-- Dict assignment never removes a key. -/
theorem lookupC_setC_isSome : ∀ (c : Cache) (key v k : Str),
    (lookupC c k).isSome = true → (lookupC (setC c key v) k).isSome = true := by
  intro c
  induction c with
  | nil =>
    intro key v k h
    simp [lookupC] at h
  | cons p rest ih =>
    intro key v k h
    obtain ⟨k', w⟩ := p
    by_cases hk : k' = key
    · rw [show setC ((k', w) :: rest) key v = (k', v) :: rest by simp [setC, hk]]
      by_cases hkk : k' = k
      · simp [lookupC, hkk]
      · rw [show lookupC ((k', v) :: rest) k = lookupC rest k by simp [lookupC, hkk]]
        rwa [show lookupC ((k', w) :: rest) k = lookupC rest k by simp [lookupC, hkk]] at h
    · rw [show setC ((k', w) :: rest) key v = (k', w) :: setC rest key v by
        simp [setC, hk]]
      by_cases hkk : k' = k
      · simp [lookupC, hkk]
      · rw [show lookupC ((k', w) :: setC rest key v) k = lookupC (setC rest key v) k by
          simp [lookupC, hkk]]
        rw [show lookupC ((k', w) :: rest) k = lookupC rest k by simp [lookupC, hkk]] at h
        exact ih key v k h

/-- A successful inner loop preserves the result-list length and every
cache key. -/
theorem applyBatch_ok (src tgt : Str) : ∀ (ts : List Str) (qs : List QItem)
    (res : List (Option Str)) (cache : Cache), ts.length ≤ qs.length →
    ∃ res' cache', applyBatch src tgt ts qs res cache = .ok (res', cache')
      ∧ res'.length = res.length
      ∧ (∀ k, (lookupC cache k).isSome = true → (lookupC cache' k).isSome = true) := by
  intro ts
  induction ts with
  | nil =>
    intro qs res cache _
    exact ⟨res, cache, rfl, rfl, fun _ h => h⟩
  | cons t ts ih =>
    intro qs res cache hlen
    cases qs with
    | nil => simp at hlen
    | cons q qs =>
      have hlen' : ts.length ≤ qs.length := by simp at hlen; omega
      obtain ⟨res', cache', happ, hres, hkeys⟩ := ih qs
        (res.set q.idx (some (restore_tokens t q.toks)))
        (setC cache (cache_key (strL "deepl") src tgt q.text) (restore_tokens t q.toks))
        hlen'
      refine ⟨res', cache', happ, ?_, ?_⟩
      · rw [hres, List.length_set]
      · intro k h
        exact hkeys k (lookupC_setC_isSome cache _ _ k h)

/-- Key preservation of the inner loop on any successful run (no
assumption on the provider). -/
theorem applyBatch_keys (src tgt : Str) : ∀ (ts : List Str) (qs : List QItem)
    (res : List (Option Str)) (cache : Cache) res' cache',
    applyBatch src tgt ts qs res cache = .ok (res', cache') →
    (∀ k, (lookupC cache k).isSome = true → (lookupC cache' k).isSome = true)
    ∧ res'.length = res.length := by
  intro ts
  induction ts with
  | nil =>
    intro qs res cache res' cache' h
    cases h
    exact ⟨fun _ h => h, rfl⟩
  | cons t ts ih =>
    intro qs res cache res' cache' h
    cases qs with
    | nil => cases h
    | cons q qs =>
      have h' := ih qs _ _ _ _ h
      refine ⟨fun k hk => h'.1 k (lookupC_setC_isSome cache _ _ k hk), ?_⟩
      rw [h'.2, List.length_set]

/-- With a length-preserving provider, the batch loop succeeds and
preserves the result-list length. -/
theorem runBatches_ok (tr : List Str → List Str) (src tgt : Str)
    (wb : ∀ ts, (tr ts).length = ts.length) :
    ∀ (f : Nat) (pending : List QItem) (res : List (Option Str)) (cache : Cache)
      (calls : List (List Str)) (saved : List Cache), pending.length ≤ f →
    ∃ res' cache' calls' saved',
      runBatches tr src tgt f pending res cache calls saved
        = .ok (res', cache', calls', saved')
      ∧ res'.length = res.length := by
  intro f
  induction f with
  | zero =>
    intro pending res cache calls saved hf
    have : pending = [] := List.length_eq_zero.mp (Nat.le_zero.mp hf)
    subst this
    exact ⟨res, cache, calls, saved, rfl, rfl⟩
  | succ f ih =>
    intro pending res cache calls saved hf
    cases pending with
    | nil => exact ⟨res, cache, calls, saved, rfl, rfl⟩
    | cons q qs =>
      have htr : (tr (((q :: qs).take BATCH_SIZE).map QItem.text)).length
          ≤ (q :: qs).length := by
        rw [wb, List.length_map, List.length_take]
        exact Nat.min_le_right _ _
      obtain ⟨res1, c1, happ, hres1, _⟩ :=
        applyBatch_ok src tgt _ (q :: qs) res cache htr
      have hdrop : ((q :: qs).drop BATCH_SIZE).length ≤ f := by
        rw [List.length_drop, List.length_cons,
          show BATCH_SIZE = 30 from rfl]
        simp at hf
        omega
      obtain ⟨res', cache', calls', saved', hrun, hlen⟩ :=
        ih ((q :: qs).drop BATCH_SIZE) res1 c1
          (calls ++ [((q :: qs).take BATCH_SIZE).map QItem.text])
          (save_cache saved c1) hdrop
      refine ⟨res', cache', calls', saved', ?_, by rw [hlen, hres1]⟩
      show runBatches tr src tgt (f + 1) (q :: qs) res cache calls saved = _
      simp only [runBatches]
      rw [happ]
      exact hrun

/-- On any successful run of the batch loop: every initial cache key is
still present, and exactly as many save snapshots as external calls have
been added. -/
theorem runBatches_keys (tr : List Str → List Str) (src tgt : Str) :
    ∀ (f : Nat) (pending : List QItem) (res : List (Option Str)) (cache : Cache)
      (calls : List (List Str)) (saved : List Cache) res' cache' calls' saved',
    runBatches tr src tgt f pending res cache calls saved
      = .ok (res', cache', calls', saved') →
    (∀ k, (lookupC cache k).isSome = true → (lookupC cache' k).isSome = true)
    ∧ (saved.length = calls.length → saved'.length = calls'.length) := by
  intro f
  induction f with
  | zero =>
    intro pending res cache calls saved res' cache' calls' saved' h
    cases pending with
    | nil => cases h; exact ⟨fun _ h => h, fun h => h⟩
    | cons q qs => cases h; exact ⟨fun _ h => h, fun h => h⟩
  | succ f ih =>
    intro pending res cache calls saved res' cache' calls' saved' h
    cases pending with
    | nil => cases h; exact ⟨fun _ h => h, fun h => h⟩
    | cons q qs =>
      simp only [runBatches] at h
      cases happ : applyBatch src tgt
          (tr (((q :: qs).take BATCH_SIZE).map QItem.text)) (q :: qs) res cache with
      | error e => rw [happ] at h; cases h
      | ok rc =>
        rw [happ] at h
        obtain ⟨res1, c1⟩ := rc
        have hkeys1 := applyBatch_keys src tgt _ _ _ _ _ _ happ
        have hrec := ih _ _ _ _ _ _ _ _ _ h
        refine ⟨fun k hk => hrec.1 k (hkeys1.1 k hk), fun hsc => ?_⟩
        apply hrec.2
        simp [save_cache, hsc]

/-- The cache-probe phase produces one result slot per segment. -/
theorem phase2_len (src tgt : Str) : ∀ (prep : List (Str × List Str)) (i : Nat)
    (cache : Cache), (phase2 src tgt prep i cache).1.length = prep.length := by
  intro prep
  induction prep with
  | nil => intro i cache; rfl
  | cons p rest ih =>
    intro i cache
    obtain ⟨ptext, toks⟩ := p
    by_cases hp : ptext ≠ []
    · cases hl : lookupC cache (cache_key (strL "deepl") src tgt ptext) with
      | some v => simp [phase2, hp, hl, ih]
      | none => simp [phase2, hp, hl, ih]
    · simp [phase2, hp, ih]

/-- What one segment becomes: served from the cache when its nonempty
protected form has an entry, otherwise translated by the per-text provider
function and restored. -/
def miss_or_hit (f : Str → Str) (src tgt : Str) (cache : Cache)
    (pt : Str × List Str) : Str :=
  match (if pt.1 ≠ [] then lookupC cache (cache_key (strL "deepl") src tgt pt.1)
      else none) with
  | some v => restore_tokens v pt.2
  | none => restore_tokens (f pt.1) pt.2

/-- The output `translate_segments` owes each input segment. -/
def per_segment_result (f : Str → Str) (src tgt : Str) (cache : Cache)
    (s : Str) : Str :=
  miss_or_hit f src tgt cache (protect_tokens (norm_ws s))

/-- Cumulative effect of the batch loop on the result slots for a per-text
provider: each queued item's slot receives its own translation. -/
def setAllQ (f : Str → Str) (qs : List QItem) (res : List (Option Str)) :
    List (Option Str) :=
  qs.foldl (fun r q => r.set q.idx (some (restore_tokens (f q.text) q.toks))) res

theorem setAllQ_nil (f : Str → Str) (res : List (Option Str)) :
    setAllQ f [] res = res := rfl

theorem setAllQ_cons (f : Str → Str) (q : QItem) (qs : List QItem)
    (res : List (Option Str)) :
    setAllQ f (q :: qs) res
      = setAllQ f qs (res.set q.idx (some (restore_tokens (f q.text) q.toks))) := rfl

theorem setAllQ_append (f : Str → Str) (qs1 qs2 : List QItem)
    (res : List (Option Str)) :
    setAllQ f (qs1 ++ qs2) res = setAllQ f qs2 (setAllQ f qs1 res) := by
  unfold setAllQ
  rw [List.foldl_append]

/-- The inner loop, fed a per-text provider's output, performs exactly the
slot updates of `setAllQ` over the submitted chunk. -/
theorem applyBatch_map (f : Str → Str) (src tgt : Str) :
    ∀ (qs1 qs2 : List QItem) (res : List (Option Str)) (cache : Cache),
    ∃ cache', applyBatch src tgt (qs1.map (fun q => f q.text)) (qs1 ++ qs2) res cache
      = .ok (setAllQ f qs1 res, cache') := by
  intro qs1
  induction qs1 with
  | nil => intro qs2 res cache; exact ⟨cache, rfl⟩
  | cons q qs1 ih =>
    intro qs2 res cache
    obtain ⟨cache', hch⟩ := ih qs2
      (res.set q.idx (some (restore_tokens (f q.text) q.toks)))
      (setC cache (cache_key (strL "deepl") src tgt q.text)
        (restore_tokens (f q.text) q.toks))
    exact ⟨cache', by rw [setAllQ_cons]; exact hch⟩

/-- The whole batch loop, for a per-text provider, applies `setAllQ` over
all queued items regardless of the chunking. -/
theorem runBatches_map (f : Str → Str) (src tgt : Str) :
    ∀ (fuel : Nat) (pending : List QItem) (res : List (Option Str))
      (cache : Cache) (calls : List (List Str)) (saved : List Cache),
      pending.length ≤ fuel →
    ∃ cache' calls' saved',
      runBatches (fun ts => ts.map f) src tgt fuel pending res cache calls saved
        = .ok (setAllQ f pending res, cache', calls', saved') := by
  intro fuel
  induction fuel with
  | zero =>
    intro pending res cache calls saved hf
    have : pending = [] := List.length_eq_zero.mp (Nat.le_zero.mp hf)
    subst this
    exact ⟨cache, calls, saved, rfl⟩
  | succ fuel ih =>
    intro pending res cache calls saved hf
    cases pending with
    | nil => exact ⟨cache, calls, saved, rfl⟩
    | cons q qs =>
      have hmapmap : (((q :: qs).take BATCH_SIZE).map QItem.text).map f
          = ((q :: qs).take BATCH_SIZE).map (fun q => f q.text) := by
        rw [List.map_map]
        rfl
      obtain ⟨c1, happ⟩ := applyBatch_map f src tgt
        ((q :: qs).take BATCH_SIZE) ((q :: qs).drop BATCH_SIZE) res cache
      rw [List.take_append_drop] at happ
      have hdrop : ((q :: qs).drop BATCH_SIZE).length ≤ fuel := by
        rw [List.length_drop, List.length_cons,
          show BATCH_SIZE = 30 from rfl]
        simp at hf
        omega
      obtain ⟨cache', calls', saved', hrun⟩ :=
        ih ((q :: qs).drop BATCH_SIZE)
          (setAllQ f ((q :: qs).take BATCH_SIZE) res) c1
          (calls ++ [((q :: qs).take BATCH_SIZE).map QItem.text])
          (save_cache saved c1) hdrop
      refine ⟨cache', calls', saved', ?_⟩
      show runBatches (fun ts => ts.map f) src tgt (fuel + 1) (q :: qs)
          res cache calls saved = _
      simp only [runBatches]
      rw [hmapmap, happ]
      show runBatches (fun ts => ts.map f) src tgt fuel ((q :: qs).drop BATCH_SIZE)
          (setAllQ f ((q :: qs).take BATCH_SIZE) res) c1
          (calls ++ [((q :: qs).take BATCH_SIZE).map QItem.text]) (save_cache saved c1)
        = Except.ok (setAllQ f (q :: qs) res, cache', calls', saved')
      rw [hrun, ← setAllQ_append, List.take_append_drop]

/-- Setting the slot just past a prefix replaces the head of the tail. -/
theorem set_append_len {α : Type} : ∀ (pre : List α) (x : α) (tail : List α) (v : α),
    (pre ++ x :: tail).set pre.length v = pre ++ v :: tail := by
  intro pre
  induction pre with
  | nil => intro x tail v; rfl
  | cons p pre ih =>
    intro x tail v
    show p :: ((pre ++ x :: tail).set pre.length v) = p :: (pre ++ v :: tail)
    rw [ih]

/-- The cache-probe phase together with the batch updates produces exactly
the per-segment specification, in input order. -/
theorem phase2_setAll (f : Str → Str) (src tgt : Str) (cache : Cache) :
    ∀ (prep : List (Str × List Str)) (pre : List (Option Str)) (i : Nat),
      i = pre.length →
    setAllQ f (phase2 src tgt prep i cache).2 (pre ++ (phase2 src tgt prep i cache).1)
      = pre ++ prep.map (fun pt => some (miss_or_hit f src tgt cache pt)) := by
  intro prep
  induction prep with
  | nil =>
    intro pre i _
    simp [phase2, setAllQ]
  | cons p rest ih =>
    intro pre i hi
    obtain ⟨ptext, toks⟩ := p
    by_cases hp : ptext ≠ []
    · cases hl : lookupC cache (cache_key (strL "deepl") src tgt ptext) with
      | some v =>
        have hph : phase2 src tgt ((ptext, toks) :: rest) i cache
            = (some (restore_tokens v toks) :: (phase2 src tgt rest (i + 1) cache).1,
               (phase2 src tgt rest (i + 1) cache).2) := by
          simp [phase2, hp, hl]
        rw [hph]
        have hpre : pre ++ some (restore_tokens v toks)
              :: (phase2 src tgt rest (i + 1) cache).1
            = (pre ++ [some (restore_tokens v toks)])
              ++ (phase2 src tgt rest (i + 1) cache).1 := by
          simp
        rw [hpre, ih (pre ++ [some (restore_tokens v toks)]) (i + 1) (by simp [← hi])]
        simp [miss_or_hit, hp, hl]
      | none =>
        have hph : phase2 src tgt ((ptext, toks) :: rest) i cache
            = (none :: (phase2 src tgt rest (i + 1) cache).1,
               ⟨ptext, i, toks⟩ :: (phase2 src tgt rest (i + 1) cache).2) := by
          simp [phase2, hp, hl]
        rw [hph, setAllQ_cons]
        have hset : (pre ++ none :: (phase2 src tgt rest (i + 1) cache).1).set i
              (some (restore_tokens (f ptext) toks))
            = (pre ++ [some (restore_tokens (f ptext) toks)])
              ++ (phase2 src tgt rest (i + 1) cache).1 := by
          rw [hi, set_append_len]
          simp
        rw [hset, ih (pre ++ [some (restore_tokens (f ptext) toks)]) (i + 1)
          (by simp [← hi])]
        simp [miss_or_hit, hp, hl]
    · have hph : phase2 src tgt ((ptext, toks) :: rest) i cache
          = (none :: (phase2 src tgt rest (i + 1) cache).1,
             ⟨ptext, i, toks⟩ :: (phase2 src tgt rest (i + 1) cache).2) := by
        simp [phase2, hp]
      rw [hph, setAllQ_cons]
      have hset : (pre ++ none :: (phase2 src tgt rest (i + 1) cache).1).set i
            (some (restore_tokens (f ptext) toks))
          = (pre ++ [some (restore_tokens (f ptext) toks)])
            ++ (phase2 src tgt rest (i + 1) cache).1 := by
        rw [hi, set_append_len]
        simp
      rw [hset, ih (pre ++ [some (restore_tokens (f ptext) toks)]) (i + 1)
        (by simp [← hi])]
      have hpe : ptext = [] := not_not.mp hp
      simp [miss_or_hit, hpe]

/-- `translate_segments` unfolded to its batch-loop core. -/
theorem translate_segments_def (tr : List Str → List Str) (src tgt : Str)
    (segs : List Str) (cache : Cache) :
    translate_segments tr src tgt segs cache
      = match runBatches tr src tgt
          (phase2 src tgt (segs.map (fun s => protect_tokens (norm_ws s))) 0 cache).2.length
          (phase2 src tgt (segs.map (fun s => protect_tokens (norm_ws s))) 0 cache).2
          (phase2 src tgt (segs.map (fun s => protect_tokens (norm_ws s))) 0 cache).1
          cache [] [] with
        | .error e => .error e
        | .ok (results, cache', calls, saved) =>
          .ok ⟨results.map (fun r => r.getD []), cache', calls, saved⟩ := rfl

/-- C5: the orchestration succeeds and returns exactly one output per
input segment for any length-preserving provider; for a per-text provider
(`tr = map f`, the shape of a real translator) the output list is exactly
the input list mapped through the per-segment specification — cache hits
and fresh translations interleaved by index in the original order,
independent of the batch chunking.  Concretely, 75 cache-miss segments are
sent in exactly 3 external calls of sizes 30, 30, 15 and the 75 outputs
come back in input order, and `["aa","bb","cc"]` with `bb` cached gives
`["aa!","BB","cc!"]` with the single call `["aa","cc"]`. -/
theorem c5_theorem (tr : List Str → List Str) (src tgt : Str) (segs : List Str)
    (cache : Cache) (wb : ∀ ts, (tr ts).length = ts.length) :
    (∃ r, translate_segments tr src tgt segs cache = .ok r
        ∧ r.out.length = segs.length)
    ∧ (∀ (f : Str → Str) (segs' : List Str) (cache' : Cache),
        ∃ r, translate_segments (fun ts => ts.map f) src tgt segs' cache' = .ok r
          ∧ r.out = segs'.map (per_segment_result f src tgt cache'))
    ∧ (translate_segments markTr (strL "EN") (strL "FR") segs75 []).map
        (fun r => (r.out, r.calls.map List.length))
      = .ok (segs75.map (fun t => t ++ ['!']), [30, 30, 15])
    ∧ (translate_segments markTr (strL "EN") (strL "FR")
        [strL "aa", strL "bb", strL "cc"]
        [(cache_key (strL "deepl") (strL "EN") (strL "FR") (strL "bb"), strL "BB")]).map
        (fun r => (r.out, r.calls))
      = .ok ([strL "aa!", strL "BB", strL "cc!"], [[strL "aa", strL "cc"]]) := by
  refine ⟨?_, ?_, by decide, by decide⟩
  · obtain ⟨res', cache', calls', saved', hrun, hlen⟩ :=
      runBatches_ok tr src tgt wb
        (phase2 src tgt (segs.map (fun s => protect_tokens (norm_ws s))) 0 cache).2.length
        (phase2 src tgt (segs.map (fun s => protect_tokens (norm_ws s))) 0 cache).2
        (phase2 src tgt (segs.map (fun s => protect_tokens (norm_ws s))) 0 cache).1
        cache [] [] (le_refl _)
    refine ⟨⟨res'.map (fun r => r.getD []), cache', calls', saved'⟩, ?_, ?_⟩
    · rw [translate_segments_def, hrun]
    · show (res'.map (fun r => r.getD [])).length = segs.length
      rw [List.length_map, hlen, phase2_len, List.length_map]
  · intro f segs' cache'
    obtain ⟨c2, cs2, sv2, hrun⟩ := runBatches_map f src tgt
      (phase2 src tgt (segs'.map (fun s => protect_tokens (norm_ws s))) 0 cache').2.length
      (phase2 src tgt (segs'.map (fun s => protect_tokens (norm_ws s))) 0 cache').2
      (phase2 src tgt (segs'.map (fun s => protect_tokens (norm_ws s))) 0 cache').1
      cache' [] [] (le_refl _)
    refine ⟨⟨(setAllQ f
        (phase2 src tgt (segs'.map (fun s => protect_tokens (norm_ws s))) 0 cache').2
        (phase2 src tgt (segs'.map (fun s => protect_tokens (norm_ws s))) 0 cache').1).map
          (fun r => r.getD []), c2, cs2, sv2⟩, ?_, ?_⟩
    · rw [translate_segments_def, hrun]
    · have h0 := phase2_setAll f src tgt cache'
        (segs'.map (fun s => protect_tokens (norm_ws s))) [] 0 rfl
      simp only [List.nil_append] at h0
      show (setAllQ f
          (phase2 src tgt (segs'.map (fun s => protect_tokens (norm_ws s))) 0 cache').2
          (phase2 src tgt (segs'.map (fun s => protect_tokens (norm_ws s))) 0 cache').1).map
            (fun r => r.getD [])
        = segs'.map (per_segment_result f src tgt cache')
      rw [h0, List.map_map, List.map_map]
      rfl

/-- C5 witness: the concrete 75-segment batching instance via the
theorem. -/
theorem c5_witness :
    (translate_segments markTr (strL "EN") (strL "FR") segs75 []).map
        (fun r => (r.out, r.calls.map List.length))
      = .ok (segs75.map (fun t => t ++ ['!']), [30, 30, 15]) :=
  (c5_theorem markTr (strL "EN") (strL "FR") segs75 []
    (fun ts => by simp [markTr])).2.2.1

/-- C9: on any successful run, the cache is append-only (every key present
before is still present after) and the cache is persisted exactly once per
external batch call, so a mid-run failure loses at most the one unsaved
batch. -/
theorem c9_theorem (tr : List Str → List Str) (src tgt : Str) (segs : List Str)
    (cache : Cache) (r : TSRes)
    (h : translate_segments tr src tgt segs cache = .ok r) :
    (∀ k, (lookupC cache k).isSome = true → (lookupC r.cache k).isSome = true)
    ∧ r.saved.length = r.calls.length := by
  rw [translate_segments_def] at h
  cases hrun : runBatches tr src tgt
      (phase2 src tgt (segs.map (fun s => protect_tokens (norm_ws s))) 0 cache).2.length
      (phase2 src tgt (segs.map (fun s => protect_tokens (norm_ws s))) 0 cache).2
      (phase2 src tgt (segs.map (fun s => protect_tokens (norm_ws s))) 0 cache).1
      cache [] [] with
  | error e => rw [hrun] at h; cases h
  | ok quad =>
    rw [hrun] at h
    obtain ⟨res', cache', calls', saved'⟩ := quad
    have hk := runBatches_keys tr src tgt _ _ _ cache [] [] _ _ _ _ hrun
    injection h with h2
    subst h2
    exact ⟨hk.1, hk.2 rfl⟩

/-- The result of the concrete C9 run: one miss translated, one prior
entry retained, one batch call, one save snapshot. -/
def c9_run : TSRes :=
  ⟨[strL "a!"],
   [(strL "k", strL "v"),
    (cache_key (strL "deepl") (strL "EN") (strL "FR") (strL "a"), strL "a!")],
   [[strL "a"]],
   [[(strL "k", strL "v"),
     (cache_key (strL "deepl") (strL "EN") (strL "FR") (strL "a"), strL "a!")]]⟩

/-- C9 witness: concrete instance — the pre-existing key `"k"` survives
the run and saves equal calls. -/
theorem c9_witness :
    (lookupC c9_run.cache (strL "k")).isSome = true
    ∧ c9_run.saved.length = c9_run.calls.length :=
  ⟨(c9_theorem markTr (strL "EN") (strL "FR") [strL "a"] [(strL "k", strL "v")]
      c9_run (by decide)).1 (strL "k") (by decide),
   (c9_theorem markTr (strL "EN") (strL "FR") [strL "a"] [(strL "k", strL "v")]
      c9_run (by decide)).2⟩

end DndTranslate
